import Mathlib

/-!
Verification of the 2x2 Rubik's cube model and its search algorithms
(`src/rubiks.py`).  The Python source is shallowly embedded: the
24-entry numpy facelet arrays become `List ℕ` of length 24, the numpy
permutation matrices become `Fin 24 → Fin 24 → ℕ` applied through an
explicit matrix-vector product, configurations become an inductive
type carrying the optional parent backpointer, and the stateful search
loops become fuel-indexed recursive functions over explicit queue
lists.  The per-call stream of random draws of the randomizer is an
explicit input list.
-/

set_option maxRecDepth 100000

/-- Embedding of `permutation_matrix(N, srcs, dsts)` for `N = 24`:
start from the identity matrix, zero the diagonal at the `srcs`
indices, then set entry `(dsts[k], srcs[k])` to `1` for each `k`.
The final value of entry `(i, j)` is therefore `1` when `(i, j)` is
one of the `(dst, src)` pairs, else the identity entry unless the
diagonal was zeroed at a source index. -/
def permutation_matrix (srcs dsts : List (Fin 24)) : Fin 24 → Fin 24 → ℕ :=
  fun i j =>
    if (dsts.zip srcs).contains (i, j) then 1
    else if i = j then (if srcs.contains i then 0 else 1) else 0

/-- Matrix transpose, embedding numpy's `.T`. -/
def transposeM (M : Fin 24 → Fin 24 → ℕ) : Fin 24 → Fin 24 → ℕ :=
  fun i j => M j i

/-- Source index list of the `front` move, from `create_matrices`. -/
def frontSrcs : List (Fin 24) := [0, 1, 2, 3, 19, 18, 4, 7, 21, 20, 14, 13]

/-- Destination index list of the `front` move, from `create_matrices`. -/
def frontDsts : List (Fin 24) := [1, 2, 3, 0, 4, 7, 21, 20, 14, 13, 19, 18]

/-- Source index list of the `right` move, from `create_matrices`. -/
def rightSrcs : List (Fin 24) := [4, 5, 6, 7, 18, 17, 8, 11, 22, 21, 2, 1]

/-- Destination index list of the `right` move, from `create_matrices`. -/
def rightDsts : List (Fin 24) := [5, 6, 7, 4, 8, 11, 22, 21, 2, 1, 18, 17]

/-- Source index list of the `top` move, from `create_matrices`. -/
def topSrcs : List (Fin 24) := [16, 17, 18, 19, 4, 5, 8, 9, 12, 13, 0, 1]

/-- Destination index list of the `top` move, from `create_matrices`. -/
def topDsts : List (Fin 24) := [17, 18, 19, 16, 0, 1, 4, 5, 8, 9, 12, 13]

/-- The `front` clockwise rotation matrix. -/
def frontM : Fin 24 → Fin 24 → ℕ := permutation_matrix frontSrcs frontDsts

/-- The `right` clockwise rotation matrix. -/
def rightM : Fin 24 → Fin 24 → ℕ := permutation_matrix rightSrcs rightDsts

/-- The `top` clockwise rotation matrix. -/
def topM : Fin 24 → Fin 24 → ℕ := permutation_matrix topSrcs topDsts

/-- The transformation table of `create_matrices`:
`[front, right, top, top.T, right.T, front.T]`. -/
def transformations : List (Fin 24 → Fin 24 → ℕ) :=
  [frontM, rightM, topM, transposeM topM, transposeM rightM, transposeM frontM]

/-- Matrix-vector product `M @ faces` over ℕ (the facelet values are
the small nonnegative integers 0..5, so ℕ is faithful): entry `i` of
the result is the dot product of row `i` with the facelet vector. -/
def mulVecL (M : Fin 24 → Fin 24 → ℕ) (v : List ℕ) : List ℕ :=
  (List.finRange 24).map (fun i => ∑ j : Fin 24, M i j * v.getD j.1 0)

/-- A cube configuration: the 24-entry facelet array, an optional
parent configuration and the move index that produced it from the
parent, embedding the Python class `Rubiks2x2`. -/
inductive Rubiks2x2 : Type where
  | mk : List ℕ → Option Rubiks2x2 → Option (Fin 6) → Rubiks2x2

/-- The facelet array of a configuration (`self.faces`). -/
def Rubiks2x2.faces : Rubiks2x2 → List ℕ
  | .mk f _ _ => f

/-- The parent backpointer (`self.parent`). -/
def Rubiks2x2.parent : Rubiks2x2 → Option Rubiks2x2
  | .mk _ p _ => p

/-- The move that produced this configuration (`self.parent_move`). -/
def Rubiks2x2.parent_move : Rubiks2x2 → Option (Fin 6)
  | .mk _ _ m => m

/-- The solved-state facelet array of `Rubiks2x2.__init__`: all four
stickers of face `k` hold color `k`. -/
def solvedFaces : List ℕ :=
  [0, 0, 0, 0, 1, 1, 1, 1, 2, 2, 2, 2, 3, 3, 3, 3, 4, 4, 4, 4, 5, 5, 5, 5]

/-- The solved configuration `Rubiks2x2()`. -/
def solved : Rubiks2x2 := .mk solvedFaces none none

/-- Applying move `num`'s matrix to a raw facelet array:
`transformations[num] @ faces`. -/
def applyMove (num : Fin 6) (v : List ℕ) : List ℕ :=
  mulVecL (transformations.get ⟨num.1, num.2⟩) v

/-- `Rubiks2x2.transform`: a new configuration whose faces are
`transformations[num] @ self.faces`, with `parent = self` and
`parent_move = num`. -/
def Rubiks2x2.transform (c : Rubiks2x2) (num : Fin 6) : Rubiks2x2 :=
  .mk (applyMove num c.faces) (some c) (some num)

/-- `Rubiks2x2.dist`: the number of positions where the two facelet
arrays differ (`(self.faces != other.faces).sum()`). -/
def Rubiks2x2.dist (c other : Rubiks2x2) : ℕ :=
  (c.faces.zip other.faces).countP (fun p => decide (p.1 ≠ p.2))

/-- `Rubiks2x2.__eq__`: equality of the facelet arrays
(`np.all(self.faces == other.faces)`); parent and parent_move are
ignored. -/
def cfgEq (c other : Rubiks2x2) : Prop :=
  c.faces = other.faces

instance (c other : Rubiks2x2) : Decidable (cfgEq c other) :=
  inferInstanceAs (Decidable (c.faces = other.faces))

/-- `Rubiks2x2.__hash__` for a fixed per-run projection vector: the
linear projection of the facelet array truncated to an integer
(`int(projection @ self.faces)`).  The per-run random real-valued
projection row is abstracted as an arbitrary fixed integer-valued
vector. -/
def hashWith (projection : List ℤ) (c : Rubiks2x2) : ℤ :=
  ((projection.zip c.faces).map (fun p => p.1 * (p.2 : ℤ))).sum

/-- The index-level source map of move `num`: position `i` of the
transformed array receives the value at position `srcMap num i` of the
input array.  Derived from the `(srcs, dsts)` lists; for the three
transposed (inverse) matrices the pairing is reversed. -/
def srcMap (num : Fin 6) : Fin 24 → Fin 24 :=
  fun i =>
    match num with
    | 0 => ((frontDsts.zip frontSrcs).lookup i).getD i
    | 1 => ((rightDsts.zip rightSrcs).lookup i).getD i
    | 2 => ((topDsts.zip topSrcs).lookup i).getD i
    | 3 => ((topSrcs.zip topDsts).lookup i).getD i
    | 4 => ((rightSrcs.zip rightDsts).lookup i).getD i
    | 5 => ((frontSrcs.zip frontDsts).lookup i).getD i

/-- Each transformation matrix is the 0/1 matrix of its index-level
source map: row `i` holds a single `1`, in column `srcMap num i`. -/
lemma transformations_entry (num : Fin 6) (i j : Fin 24) :
    transformations.get ⟨num.1, num.2⟩ i j = if j = srcMap num i then 1 else 0 := by
  revert num i j; decide

/-- Matrix application gathers entries along the source map. -/
lemma applyMove_eq (num : Fin 6) (v : List ℕ) :
    applyMove num v = (List.finRange 24).map (fun i => v.getD (srcMap num i).1 0) := by
  unfold applyMove mulVecL
  refine List.map_congr_left (fun i _ => ?_)
  have h : ∀ j : Fin 24, transformations.get ⟨num.1, num.2⟩ i j * v.getD j.1 0
      = if j = srcMap num i then v.getD j.1 0 else 0 := by
    intro j
    rw [transformations_entry]
    by_cases hj : j = srcMap num i <;> simp [hj]
  calc (∑ j : Fin 24, transformations.get ⟨num.1, num.2⟩ i j * v.getD j.1 0)
      = ∑ j : Fin 24, (if j = srcMap num i then v.getD j.1 0 else 0) :=
        Finset.sum_congr rfl (fun j _ => h j)
    _ = v.getD (srcMap num i).1 0 := by
        rw [Finset.sum_ite_eq' Finset.univ (srcMap num i) (fun j => v.getD j.1 0)]
        simp

/-- A transformed facelet array always has 24 entries. -/
lemma applyMove_length (num : Fin 6) (v : List ℕ) : (applyMove num v).length = 24 := by
  rw [applyMove_eq]; simp

/-- Entry `i` of a transformed facelet array. -/
lemma applyMove_getD (num : Fin 6) (v : List ℕ) (i : Fin 24) :
    (applyMove num v).getD i.1 0 = v.getD (srcMap num i).1 0 := by
  rw [applyMove_eq]
  rw [List.getD_eq_getElem _ _ (by simp [i.2])]
  simp

/-- A 24-entry list is recovered from its indexed reads. -/
lemma eq_map_getD_of_length (v : List ℕ) (h : v.length = 24) :
    (List.finRange 24).map (fun i => v.getD i.1 0) = v := by
  refine List.ext_getElem (by simp [h]) ?_
  intro n h1 h2
  simp only [List.getElem_map, List.getElem_finRange]
  rw [List.getD_eq_getElem _ _ (by exact h2)]
  simp

/-- The move `5 - i` undoes move `i` at the index level. -/
lemma srcMap_inv (i : Fin 6) (j : Fin 24) :
    srcMap i (srcMap ⟨5 - i.1, by omega⟩ j) = j := by
  revert i j; decide

/-- Claim C1: for every move index `i` in `[0,6)` and every
configuration `c` (its facelet array having the 24 entries required by
the matrix shapes), applying `transform` with `i` and then with
`5 - i` reproduces `c`'s facelet array exactly. -/
theorem C1_inverse_identity (c : Rubiks2x2) (i : Fin 6)
    (h : c.faces.length = 24) :
    ((c.transform i).transform ⟨5 - i.1, by omega⟩).faces = c.faces := by
  show applyMove ⟨5 - i.1, by omega⟩ (applyMove i c.faces) = c.faces
  rw [applyMove_eq]
  have : ∀ k : Fin 24,
      (applyMove i c.faces).getD (srcMap ⟨5 - i.1, by omega⟩ k).1 0
        = c.faces.getD k.1 0 := by
    intro k
    rw [applyMove_getD]
    rw [srcMap_inv]
  calc (List.finRange 24).map
        (fun k => (applyMove i c.faces).getD (srcMap ⟨5 - i.1, by omega⟩ k).1 0)
      = (List.finRange 24).map (fun k => c.faces.getD k.1 0) :=
        List.map_congr_left (fun k _ => this k)
    _ = c.faces := eq_map_getD_of_length c.faces h

/-- Witness for C1 at a concrete configuration and move. -/
theorem C1_inverse_identity_witness :
    (solved.faces.length = 24) ∧
      ((solved.transform 0).transform ⟨5 - (0 : Fin 6).1, by omega⟩).faces
        = solved.faces :=
  ⟨by decide, C1_inverse_identity solved 0 (by decide)⟩

/-! ## Ancestry chains -/

/-- The move list of a configuration's ancestry chain, in root-to-node
order: the moves that were applied, from the search root, to produce
this configuration. -/
def movesOf : Rubiks2x2 → List (Fin 6)
  | .mk _ none _ => []
  | .mk _ (some p) none => movesOf p
  | .mk _ (some p) (some m) => movesOf p ++ [m]

/-- The number of parent links in a configuration's ancestry chain. -/
def chainLen : Rubiks2x2 → ℕ
  | .mk _ none _ => 0
  | .mk _ (some p) _ => chainLen p + 1

/-- The root of a configuration's ancestry chain (the ancestor without
a parent). -/
def rootOf : Rubiks2x2 → Rubiks2x2
  | .mk f none m => .mk f none m
  | .mk _ (some p) _ => rootOf p

/-- Replaying a move list on a raw facelet array, in order. -/
def replay (base : List ℕ) (ms : List (Fin 6)) : List ℕ :=
  ms.foldl (fun f m => applyMove m f) base

/-- A configuration whose ancestry chain is consistent and rooted at a
configuration with facelet array `base`: the root's faces are `base`,
and every non-root node's faces are its recorded move applied to its
parent's faces. -/
inductive Rooted (base : List ℕ) : Rubiks2x2 → Prop where
  | root (pm : Option (Fin 6)) : Rooted base (.mk base none pm)
  | step (p : Rubiks2x2) (m : Fin 6) : Rooted base p →
      Rooted base (.mk (applyMove m p.faces) (some p) (some m))

/-- The inverse operator index `N - m - 1 = 5 - m` used by the
bidirectional reconstruction. -/
def invMove (m : Fin 6) : Fin 6 := ⟨5 - m.1, by omega⟩

/-- All six move indices in iteration order, embedding
`range(len(transformations))`. -/
def allMoves : List (Fin 6) := [0, 1, 2, 3, 4, 5]

/-! ## Forward breadth-first search (`solve`) -/

/-- One expansion step of `solve`: generate the six children of
`latest` in move order; if a child equals `goal` the search returns
it, otherwise the children (in order) are destined for the queue. -/
def solveExpand (goal latest : Rubiks2x2) : List (Fin 6) → List Rubiks2x2 ⊕ Rubiks2x2
  | [] => .inl []
  | t :: ts =>
    let new_cube := latest.transform t
    if cfgEq new_cube goal then .inr new_cube
    else
      match solveExpand goal latest ts with
      | .inl l => .inl (new_cube :: l)
      | .inr r => .inr r

/-- The FIFO loop of `solve`, with explicit fuel: dequeue the front
configuration, expand its six children, return on a goal hit, else
append the children to the queue.  An empty queue models loop exit
without success (Python returns `None`). -/
def solveLoop (goal : Rubiks2x2) : ℕ → List Rubiks2x2 → Option Rubiks2x2
  | 0, _ => none
  | _ + 1, [] => none
  | fuel + 1, latest :: rest =>
    match solveExpand goal latest allMoves with
    | .inr r => some r
    | .inl children => solveLoop goal fuel (rest ++ children)

/-- `solve(cube, goal)`: breadth-first search seeded with a fresh copy
of `cube` (ancestry discarded). -/
def solve (fuel : ℕ) (cube goal : Rubiks2x2) : Option Rubiks2x2 :=
  solveLoop goal fuel [.mk cube.faces none none]

/-! ## Bidirectional breadth-first search (`solve_2way`) -/

/-- Goal-side expansion of one dequeued configuration: each of the six
children is appended to the goal-side queue and inserted into the goal
lookup set.  The lookup set is a newest-first association list, so
insertion is `cons`; a later insertion with an equal facelet array
shadows an earlier one, matching dict overwrite semantics. -/
def expandDst (latest : Rubiks2x2) (ts : List (Fin 6)) (dq gs : List Rubiks2x2) :
    List Rubiks2x2 × List Rubiks2x2 :=
  ts.foldl (fun p t =>
    let new_dst := latest.transform t
    (p.1 ++ [new_dst], new_dst :: p.2)) (dq, gs)

/-- The reconstruction loop of `solve_2way`: while the goal-side match
has a parent, apply the inverse operator `5 - parent_move` to the
start-side configuration and move to the parent.  (A node with a
parent but no recorded move is never constructed by the code; the
embedding skips it.) -/
def reconstruct (new_src : Rubiks2x2) : Rubiks2x2 → Rubiks2x2
  | .mk _ none _ => new_src
  | .mk _ (some p) none => reconstruct new_src p
  | .mk _ (some p) (some m) => reconstruct (new_src.transform (invMove m)) p

/-- Start-side expansion of one dequeued configuration: for each child
in move order, a membership hit in the goal lookup set triggers
reconstruction and returns; otherwise the child is destined for the
start-side queue. -/
def expandSrc (gs : List Rubiks2x2) (latest : Rubiks2x2) :
    List (Fin 6) → List Rubiks2x2 ⊕ Rubiks2x2
  | [] => .inl []
  | t :: ts =>
    let new_src := latest.transform t
    match gs.find? (fun g => decide (cfgEq new_src g)) with
    | some remainder => .inr (reconstruct new_src remainder)
    | none =>
      match expandSrc gs latest ts with
      | .inl l => .inl (new_src :: l)
      | .inr r => .inr r

/-- The lockstep loop of `solve_2way`: while the start-side queue is
nonempty, first dequeue and expand one goal-side configuration, then
dequeue one start-side configuration and check its children against
the goal lookup set. -/
def solve2Loop (goal : Rubiks2x2) :
    ℕ → List Rubiks2x2 → List Rubiks2x2 → List Rubiks2x2 → Option Rubiks2x2
  | 0, _, _, _ => none
  | _ + 1, [], _, _ => none
  | _ + 1, _ :: _, [], _ => none
  | fuel + 1, latest_src :: srest, latest_dst :: drest, gs =>
    let p := expandDst latest_dst allMoves drest gs
    match expandSrc p.2 latest_src allMoves with
    | .inr r => some r
    | .inl adds => solve2Loop goal fuel (srest ++ adds) p.1 p.2

/-- `solve_2way(cube, goal)`: bidirectional search seeded with fresh
copies of `cube` and `goal`, and goal lookup set `{end: end}`. -/
def solve_2way (fuel : ℕ) (cube goal : Rubiks2x2) : Option Rubiks2x2 :=
  solve2Loop goal fuel [.mk cube.faces none none] [.mk goal.faces none none]
    [.mk goal.faces none none]

/-! ## Best-first search (`solve_pq`) -/

/-- Removing a minimum-priority element from the priority frontier,
where the priority of an item is `item.dist(goal)` as recorded by
`PriorityItem`.  The underlying heap's tie order among equal
priorities is unspecified; the embedding deterministically picks the
first-listed minimum. -/
def popMin (goal : Rubiks2x2) : List Rubiks2x2 → Option (Rubiks2x2 × List Rubiks2x2)
  | [] => none
  | c :: rest =>
    match popMin goal rest with
    | none => some (c, [])
    | some (m, rest') =>
      if c.dist goal ≤ m.dist goal then some (c, rest) else some (m, c :: rest')

/-- One expansion step of `solve_pq`: for each child in move order, a
goal hit returns; a child already in the visited set is dropped; any
other child is enqueued and marked visited immediately. -/
def pqExpand (goal latest : Rubiks2x2) :
    List (Fin 6) → List Rubiks2x2 → List Rubiks2x2 →
    (List Rubiks2x2 × List Rubiks2x2) ⊕ Rubiks2x2
  | [], q, visited => .inl (q, visited)
  | t :: ts, q, visited =>
    let new_cube := latest.transform t
    if cfgEq new_cube goal then .inr new_cube
    else if visited.any (fun v => decide (cfgEq new_cube v)) then
      pqExpand goal latest ts q visited
    else
      pqExpand goal latest ts (q ++ [new_cube]) (visited ++ [new_cube])

/-- The loop of `solve_pq` with explicit fuel: pop a lowest-priority
configuration and expand it. -/
def pqLoop (goal : Rubiks2x2) : ℕ → List Rubiks2x2 → List Rubiks2x2 → Option Rubiks2x2
  | 0, _, _ => none
  | fuel + 1, q, visited =>
    match popMin goal q with
    | none => none
    | some (latest, rest) =>
      match pqExpand goal latest allMoves rest visited with
      | .inr r => some r
      | .inl p => pqLoop goal fuel p.1 p.2

/-- `solve_pq(cube, goal)`: best-first search seeded with a fresh copy
of `cube`, which is also the initial visited set. -/
def solve_pq (fuel : ℕ) (cube goal : Rubiks2x2) : Option Rubiks2x2 :=
  pqLoop goal fuel [.mk cube.faces none none] [.mk cube.faces none none]

/-! ## Randomizer (`randomize`) -/

/-- The loop of `randomize`, with the stream of random move draws made
an explicit input list (each entry models one `np.random.randint(6)`):
while steps remain, draw a move; if the resulting configuration was
already visited, retry with the next draw, else advance and record it.
`none` models a run whose draw stream is exhausted before `n_steps`
fresh configurations were found. -/
def randomizeGo (visited : List Rubiks2x2) (cube : Rubiks2x2) :
    ℕ → List (Fin 6) → Option Rubiks2x2
  | 0, _ => some cube
  | _ + 1, [] => none
  | n + 1, t :: rest =>
    let new_cube := cube.transform t
    if visited.any (fun v => decide (cfgEq new_cube v)) then
      randomizeGo visited cube (n + 1) rest
    else
      randomizeGo (new_cube :: visited) new_cube n rest

/-- `randomize(cube, n_steps)` under a given draw stream. -/
def randomize (cube : Rubiks2x2) (n_steps : ℕ) (draws : List (Fin 6)) :
    Option Rubiks2x2 :=
  randomizeGo [cube] cube n_steps draws

/-- Instrumented variant of `randomizeGo` that returns the final
visited list (newest first, so its head is the current cube and its
last element is the start).  The visited set of `randomize` grows by
exactly the accepted configurations, so this list is the trajectory of
the run. -/
def randomizeTrace (visited : List Rubiks2x2) :
    ℕ → List (Fin 6) → Option (List Rubiks2x2)
  | 0, _ => some visited
  | _ + 1, [] => none
  | n + 1, t :: rest =>
    match visited with
    | [] => none
    | cube :: _ =>
      let new_cube := cube.transform t
      if visited.any (fun v => decide (cfgEq new_cube v)) then
        randomizeTrace visited (n + 1) rest
      else
        randomizeTrace (new_cube :: visited) n rest

/-! ## Path reconstructor (`print_history`) -/

/-- The output of `print_history`, as data: the list of printed
`(move, configuration)` pairs in print order — for each step, the
`parent_move` of the current node paired with the parent it came from,
walking backward from the terminal — together with the printed total
step count. -/
def history : Rubiks2x2 → List (Fin 6 × Rubiks2x2) × ℕ
  | .mk _ _ none => ([], 0)
  | .mk _ (some p) (some m) =>
    let rest := history p
    ((m, p) :: rest.1, rest.2 + 1)
  | .mk _ none (some _) => ([], 0)

/-! ## Raw Python indexing of the transform table (`transform(num)`) -/

/-- Python list indexing semantics: a negative index has the list
length added once; an index then outside `[0, len)` raises
`IndexError` (modeled as `none`). -/
def pyIndex (l : List (Fin 24 → Fin 24 → ℕ)) (i : ℤ) : Option (Fin 24 → Fin 24 → ℕ) :=
  let j := if i < 0 then i + l.length else i
  if 0 ≤ j then l.get? j.toNat else none

/-- `Rubiks2x2.transform` called with an arbitrary integer move index:
the facelet array of the resulting configuration, or `none` when the
lookup `transformations[num]` raises `IndexError`. -/
def pyTransformFaces (c : Rubiks2x2) (num : ℤ) : Option (List ℕ) :=
  (pyIndex transformations num).map (fun M => mulVecL M c.faces)

/-! ## Basic chain lemmas -/

lemma movesOf_transform (c : Rubiks2x2) (m : Fin 6) :
    movesOf (c.transform m) = movesOf c ++ [m] := rfl

lemma rootOf_transform (c : Rubiks2x2) (m : Fin 6) :
    rootOf (c.transform m) = rootOf c := rfl

lemma faces_transform (c : Rubiks2x2) (m : Fin 6) :
    (c.transform m).faces = applyMove m c.faces := rfl

lemma replay_concat (base : List ℕ) (ms : List (Fin 6)) (m : Fin 6) :
    replay base (ms ++ [m]) = applyMove m (replay base ms) := by
  simp [replay, List.foldl_append]

lemma Rooted.transform {base : List ℕ} {c : Rubiks2x2} (h : Rooted base c)
    (m : Fin 6) : Rooted base (c.transform m) :=
  Rooted.step c m h

lemma Rooted.replay_eq {base : List ℕ} {c : Rubiks2x2} (h : Rooted base c) :
    replay base (movesOf c) = c.faces := by
  induction h with
  | root pm => simp [movesOf, replay, Rubiks2x2.faces]
  | step p m hp ih =>
    show replay base (movesOf (.mk (applyMove m p.faces) (some p) (some m))) = _
    rw [show movesOf (.mk (applyMove m p.faces) (some p) (some m))
          = movesOf p ++ [m] from rfl]
    rw [replay_concat, ih]
    rfl

/-- A facelet array produced by at least one move has 24 entries, so a
replay from any base is insensitive to how the base is read beyond its
entries; all searched configurations after one transform have
length-24 faces. -/
lemma replay_length (base : List ℕ) (ms : List (Fin 6)) (h : ms ≠ []) :
    (replay base ms).length = 24 := by
  induction ms using List.reverseRecOn with
  | nil => exact absurd rfl h
  | append_singleton ms m _ =>
    rw [replay_concat]
    exact applyMove_length m _

/-! ## Claim C5: equality and hash are functions of the facelet array -/

/-- Two length-24 lists agree exactly when their 24 indexed reads
agree. -/
lemma list_eq_iff_getD (f f' : List ℕ) (hf : f.length = 24) (hf' : f'.length = 24) :
    f = f' ↔ ∀ i : Fin 24, f.getD i.1 0 = f'.getD i.1 0 := by
  constructor
  · intro h i; rw [h]
  · intro h
    refine List.ext_getElem (by omega) ?_
    intro n h1 h2
    have := h ⟨n, by omega⟩
    rwa [List.getD_eq_getElem _ _ h1, List.getD_eq_getElem _ _ h2] at this

/-- Claim C5: two Configurations are equal exactly when their 24-entry
facelet arrays are element-wise equal, parent and parent_move being
ignored; and for the fixed per-run projection vector the hash is a
pure function of the facelet array, so equal Configurations hash
identically. -/
theorem C5_equality_hash_consistency :
    (∀ (f f' : List ℕ) (p p' : Option Rubiks2x2) (m m' : Option (Fin 6)),
        f.length = 24 → f'.length = 24 →
        (cfgEq (.mk f p m) (.mk f' p' m') ↔
          ∀ i : Fin 24, f.getD i.1 0 = f'.getD i.1 0)) ∧
    (∀ (projection : List ℤ) (c d : Rubiks2x2),
        cfgEq c d → hashWith projection c = hashWith projection d) := by
  constructor
  · intro f f' p p' m m' hf hf'
    show f = f' ↔ _
    exact list_eq_iff_getD f f' hf hf'
  · intro projection c d h
    unfold hashWith
    rw [show c.faces = d.faces from h]

/-- Witness for C5: two concrete configurations with equal faces but
different provenance are equal and hash identically. -/
theorem C5_equality_hash_consistency_witness :
    (solvedFaces.length = 24 ∧
      (cfgEq (.mk solvedFaces none none) (.mk solvedFaces (some solved) (some 0)) ↔
        ∀ i : Fin 24, solvedFaces.getD i.1 0 = solvedFaces.getD i.1 0)) ∧
    (cfgEq solved (.mk solvedFaces (some solved) (some 0)) ∧
      hashWith [3, -5, 7] solved = hashWith [3, -5, 7] (.mk solvedFaces (some solved) (some 0))) :=
  ⟨⟨by decide, C5_equality_hash_consistency.1 solvedFaces solvedFaces none
      (some solved) none (some 0) (by decide) (by decide)⟩,
   ⟨rfl, C5_equality_hash_consistency.2 [3, -5, 7] solved
      (.mk solvedFaces (some solved) (some 0)) rfl⟩⟩

/-! ## Claim C7: out-of-range move indices -/

/-- Counterexample to C7: the negative index `-1` does not fail fast;
Python list indexing silently wraps it to `transformations[5]`, and
`transform` yields the valid configuration of operator 5. -/
theorem C7_counterexample :
    pyTransformFaces solved (-1) = some (applyMove 5 solvedFaces) ∧
      pyTransformFaces solved (-1) ≠ none := by
  constructor
  · decide
  · decide

/-- Amended C7: `transform` raises `IndexError` exactly for integer
move indices `i ≥ 6` or `i < -6`; for `-6 ≤ i < 0` Python list
indexing wraps around and applies the valid operator `i + 6`. -/
theorem C7_index_wraparound (c : Rubiks2x2) (i : ℤ) :
    (pyTransformFaces c i = none ↔ (6 ≤ i ∨ i < -6)) ∧
      (∀ _ : -6 ≤ i, ∀ _ : i < 0,
        pyTransformFaces c i = some (applyMove ⟨(i + 6).toNat, by omega⟩ c.faces)) := by
  have hlen : transformations.length = 6 := by decide
  have hunf : pyTransformFaces c i
      = ((if 0 ≤ (if i < 0 then i + 6 else i)
          then transformations.get? (if i < 0 then i + 6 else i).toNat
          else none).map (fun M => mulVecL M c.faces)) := by
    unfold pyTransformFaces pyIndex
    simp only [hlen, Nat.cast_ofNat]
  rw [hunf]
  by_cases hneg : i < 0
  · simp only [if_pos hneg]
    constructor
    · by_cases hge : 0 ≤ i + 6
      · rw [if_pos hge]
        rw [Option.map_eq_none', List.get?_eq_none, hlen]
        omega
      · rw [if_neg hge]
        simp only [Option.map_none']
        exact ⟨fun _ => by omega, fun _ => by trivial⟩
    · intro h1 h2
      rw [if_pos (by omega : (0:ℤ) ≤ i + 6)]
      rw [List.get?_eq_get (by rw [hlen]; omega)]
      rfl
  · simp only [if_neg hneg]
    constructor
    · rw [if_pos (by omega : (0:ℤ) ≤ i)]
      rw [Option.map_eq_none', List.get?_eq_none, hlen]
      omega
    · intro h1 h2
      exact absurd h2 hneg

/-! ## Claim C4: color counts are invariant -/

lemma srcMap_bijective (m : Fin 6) : Function.Bijective (srcMap m) := by
  revert m; decide

/-- Mapping the index range through a bijection permutes it. -/
lemma finRange_map_perm (σ : Fin 24 → Fin 24) (h : Function.Bijective σ) :
    List.Perm ((List.finRange 24).map σ) (List.finRange 24) := by
  refine List.perm_of_nodup_nodup_toFinset_eq
    (List.Nodup.map h.1 (List.nodup_finRange 24)) (List.nodup_finRange 24) ?_
  ext a
  simp only [List.mem_toFinset, List.mem_map, List.mem_finRange, true_and, iff_true]
  obtain ⟨b, hb⟩ := h.2 a
  exact ⟨b, hb⟩

/-- A transform permutes the entries of a 24-entry facelet array. -/
lemma applyMove_perm (m : Fin 6) (v : List ℕ) (h : v.length = 24) :
    List.Perm (applyMove m v) v := by
  rw [applyMove_eq]
  have hv : (List.finRange 24).map (fun j => v.getD j.1 0) = v :=
    eq_map_getD_of_length v h
  have hmap : (List.finRange 24).map (fun i => v.getD (srcMap m i).1 0)
      = ((List.finRange 24).map (srcMap m)).map (fun j => v.getD j.1 0) := by
    rw [List.map_map]
    rfl
  rw [hmap]
  have := List.Perm.map (fun j : Fin 24 => v.getD j.1 0)
    (finRange_map_perm (srcMap m) (srcMap_bijective m))
  rw [hv] at this
  exact this

lemma replay_solved_length (ms : List (Fin 6)) :
    (replay solvedFaces ms).length = 24 := by
  cases hm : ms with
  | nil => decide
  | cons a l => exact replay_length solvedFaces (a :: l) (by simp)

/-- Claim C4: every configuration reachable from the solved state by a
sequence of the six operators has exactly 4 occurrences of each color
0..5 in its facelet array; equivalently each operator acts as a
permutation of the 24 facelet positions, preserving the solved
constructor's color counts. -/
theorem C4_color_count_invariant :
    (∀ c : Rubiks2x2, Rooted solvedFaces c → ∀ v : Fin 6, c.faces.count v.1 = 4) ∧
      (∀ m : Fin 6, Function.Bijective (srcMap m)) := by
  constructor
  · have key : ∀ ms : List (Fin 6), ∀ v : Fin 6,
        (replay solvedFaces ms).count v.1 = 4 := by
      intro ms
      induction ms using List.reverseRecOn with
      | nil => decide
      | append_singleton ms m ih =>
        intro v
        rw [replay_concat]
        rw [List.Perm.count_eq
          (applyMove_perm m (replay solvedFaces ms) (replay_solved_length ms))]
        exact ih v
    intro c hc v
    rw [← hc.replay_eq]
    exact key (movesOf c) v
  · exact srcMap_bijective

/-- Witness for C4 at a concrete reachable configuration and color. -/
theorem C4_color_count_invariant_witness :
    (solved.transform 1).faces.count (2 : Fin 6).1 = 4 :=
  C4_color_count_invariant.1 (solved.transform 1)
    (Rooted.transform (Rooted.root none) 1) 2

/-- Witness for C7's amended statement at `i = -1`. -/
theorem C7_index_wraparound_witness :
    ((pyTransformFaces solved (-1) = none ↔ (6 ≤ (-1 : ℤ) ∨ (-1 : ℤ) < -6)) ∧
      pyTransformFaces solved (-1)
        = some (applyMove ⟨((-1 : ℤ) + 6).toNat, by omega⟩ solved.faces)) :=
  ⟨(C7_index_wraparound solved (-1)).1,
    (C7_index_wraparound solved (-1)).2 (by omega) (by omega)⟩

/-! ## Claim C8: print_history order -/

/-- The facelet arrays of a configuration's strict ancestors, nearest
first. -/
def ancestorsFaces : Rubiks2x2 → List (List ℕ)
  | .mk _ none _ => []
  | .mk _ (some p) _ => p.faces :: ancestorsFaces p

/-- Counterexample to C8: on the two-step chain built by moves `0`
then `1`, `print_history` emits the moves in terminal-to-start order
`[1, 0]` (no reversal), each paired with the configuration it came
from (the parent), not the resulting configuration; the claimed
start-to-terminal sequence of (move, resulting configuration) pairs is
not produced. -/
theorem C8_counterexample :
    ((history ((solved.transform 0).transform 1)).1.map
        (fun q => (q.1.1, q.2.faces))
      = [(1, (solved.transform 0).faces), (0, solvedFaces)]) ∧
    (movesOf ((solved.transform 0).transform 1) = [0, 1]) ∧
    ((history ((solved.transform 0).transform 1)).1.map
        (fun q => (q.1.1, q.2.faces))
      ≠ [(0, (solved.transform 0).faces),
         (1, ((solved.transform 0).transform 1).faces)]) := by
  refine ⟨by decide, by decide, by decide⟩

/-- Amended C8: `print_history` walks parent pointers backward from
the terminal and emits, without reversing, each node's `parent_move`
paired with the parent (source) configuration, so the printed move
sequence is the reverse of the root-to-terminal move list; the
reported step count equals the number of parent links in the chain. -/
theorem C8_history_backward (base : List ℕ) (c : Rubiks2x2) (h : Rooted base c) :
    (history c).1.map Prod.fst = (movesOf c).reverse ∧
    (history c).1.map (fun q => q.2.faces) = ancestorsFaces c ∧
    (history c).2 = chainLen c ∧
    chainLen c = (movesOf c).length := by
  induction h with
  | root pm =>
    cases pm with
    | none => exact ⟨rfl, rfl, rfl, rfl⟩
    | some m => exact ⟨rfl, rfl, rfl, rfl⟩
  | step p m hp ih =>
    obtain ⟨ih1, ih2, ih3, ih4⟩ := ih
    refine ⟨?_, ?_, ?_, ?_⟩
    · show (m :: (history p).1.map Prod.fst) = (movesOf p ++ [m]).reverse
      rw [List.reverse_append, ih1]
      rfl
    · show (p.faces :: (history p).1.map (fun q => q.2.faces))
        = p.faces :: ancestorsFaces p
      rw [ih2]
    · show (history p).2 + 1 = chainLen p + 1
      rw [ih3]
    · show chainLen p + 1 = (movesOf p ++ [m]).length
      rw [List.length_append, ih4]
      rfl

/-- Witness for C8's amended statement on a concrete two-move chain. -/
theorem C8_history_backward_witness :
    ((history ((solved.transform 0).transform 1)).1.map Prod.fst
        = (movesOf ((solved.transform 0).transform 1)).reverse) ∧
    ((history ((solved.transform 0).transform 1)).1.map (fun q => q.2.faces)
        = ancestorsFaces ((solved.transform 0).transform 1)) ∧
    ((history ((solved.transform 0).transform 1)).2
        = chainLen ((solved.transform 0).transform 1)) ∧
    (chainLen ((solved.transform 0).transform 1)
        = (movesOf ((solved.transform 0).transform 1)).length) :=
  C8_history_backward solvedFaces ((solved.transform 0).transform 1)
    ((Rooted.root none).transform 0 |>.transform 1)

/-! ## Claim C9: randomizer produces distinct configurations -/

/-- `randomize`'s result is the head of the instrumented trajectory. -/
lemma randomizeGo_eq_trace :
    ∀ (draws : List (Fin 6)) (n : ℕ) (vis : List Rubiks2x2) (cube : Rubiks2x2),
      randomizeGo (cube :: vis) cube n draws
        = (randomizeTrace (cube :: vis) n draws).bind (fun l => l.head?) := by
  intro draws
  induction draws with
  | nil =>
    intro n vis cube
    cases n with
    | zero => rfl
    | succ k => rfl
  | cons t rest ih =>
    intro n vis cube
    cases n with
    | zero => rfl
    | succ k =>
      show (if (cube :: vis).any (fun v => decide (cfgEq (cube.transform t) v))
          then randomizeGo (cube :: vis) cube (k + 1) rest
          else randomizeGo (cube.transform t :: cube :: vis) (cube.transform t) k rest)
        = _
      by_cases hv : (cube :: vis).any (fun v => decide (cfgEq (cube.transform t) v))
      · rw [if_pos hv]
        rw [show randomizeTrace (cube :: vis) (k + 1) (t :: rest)
            = randomizeTrace (cube :: vis) (k + 1) rest by
          show (if (cube :: vis).any (fun v => decide (cfgEq (cube.transform t) v))
              then randomizeTrace (cube :: vis) (k + 1) rest
              else randomizeTrace (cube.transform t :: cube :: vis) k rest) = _
          rw [if_pos hv]]
        exact ih (k + 1) vis cube
      · rw [if_neg hv]
        rw [show randomizeTrace (cube :: vis) (k + 1) (t :: rest)
            = randomizeTrace (cube.transform t :: cube :: vis) k rest by
          show (if (cube :: vis).any (fun v => decide (cfgEq (cube.transform t) v))
              then randomizeTrace (cube :: vis) (k + 1) rest
              else randomizeTrace (cube.transform t :: cube :: vis) k rest) = _
          rw [if_neg hv]]
        exact ih k (cube :: vis) (cube.transform t)

/-- Invariant of the randomizer loop: the trajectory extends the
visited list, stays pairwise distinct, keeps its last element, and
grows by exactly the number of accepted steps. -/
lemma randomizeTrace_spec :
    ∀ (draws : List (Fin 6)) (n : ℕ) (vis tr : List Rubiks2x2),
      vis ≠ [] → List.Pairwise (fun a b => ¬cfgEq a b) vis →
      randomizeTrace vis n draws = some tr →
      tr.length = vis.length + n ∧ List.Pairwise (fun a b => ¬cfgEq a b) tr ∧
        tr.getLast? = vis.getLast? ∧ ∃ pre, tr = pre ++ vis := by
  intro draws
  induction draws with
  | nil =>
    intro n vis tr hne hpw htr
    cases n with
    | zero =>
      cases htr
      exact ⟨rfl, hpw, rfl, ⟨[], rfl⟩⟩
    | succ k => cases htr
  | cons t rest ih =>
    intro n vis tr hne hpw htr
    cases n with
    | zero =>
      cases htr
      exact ⟨rfl, hpw, rfl, ⟨[], rfl⟩⟩
    | succ k =>
      match vis, hne with
      | cube :: vs, _ =>
        rw [show randomizeTrace (cube :: vs) (k + 1) (t :: rest)
            = (if (cube :: vs).any (fun v => decide (cfgEq (cube.transform t) v))
               then randomizeTrace (cube :: vs) (k + 1) rest
               else randomizeTrace (cube.transform t :: cube :: vs) k rest)
          from rfl] at htr
        by_cases hv : (cube :: vs).any (fun v => decide (cfgEq (cube.transform t) v))
        · rw [if_pos hv] at htr
          exact ih (k + 1) (cube :: vs) tr (by simp) hpw htr
        · rw [if_neg hv] at htr
          have hfresh : ∀ v ∈ cube :: vs, ¬cfgEq (cube.transform t) v := by
            intro v hmem hc
            exact hv (List.any_eq_true.mpr ⟨v, hmem, by exact decide_eq_true hc⟩)
          have hpw' : List.Pairwise (fun a b => ¬cfgEq a b)
              (cube.transform t :: cube :: vs) :=
            List.Pairwise.cons hfresh hpw
          obtain ⟨hlen, hp, hlast, pre, hpre⟩ :=
            ih k (cube.transform t :: cube :: vs) tr (by simp) hpw' htr
          refine ⟨?_, hp, ?_, ?_⟩
          · rw [hlen]
            simp only [List.length_cons]
            omega
          · rw [hlast]
            exact List.getLast?_cons_cons
          · exact ⟨pre ++ [cube.transform t], by simpa using hpre⟩

/-- Claim C9: for every draw stream on which `randomize(cube, n)`
terminates, the trajectory has exactly `n` configurations beyond the
start, no two of the `n + 1` configurations along the way (start
included) are equal, the result is the trajectory's newest entry, and
for `n ≥ 1` the returned configuration differs from the start. -/
theorem C9_randomizer_no_revisit (cube : Rubiks2x2) (n : ℕ)
    (draws : List (Fin 6)) (tr : List Rubiks2x2)
    (h : randomizeTrace [cube] n draws = some tr) :
    tr.length = n + 1 ∧
    List.Pairwise (fun a b => ¬cfgEq a b) tr ∧
    tr.getLast? = some cube ∧
    randomize cube n draws = tr.head? ∧
    (1 ≤ n → ∀ res, randomize cube n draws = some res → ¬cfgEq res cube) := by
  obtain ⟨hlen, hpw, hlast, pre, hpre⟩ :=
    randomizeTrace_spec draws n [cube] tr (by simp) (by simp) h
  have hlen' : tr.length = n + 1 := by
    rw [hlen]; simp; omega
  have hres : randomize cube n draws = tr.head? := by
    unfold randomize
    rw [randomizeGo_eq_trace draws n [] cube, h]
    rfl
  refine ⟨hlen', hpw, by simpa using hlast, hres, ?_⟩
  intro hn res hr
  have hhead : tr.head? = some res := by rw [← hres, hr]
  match tr, hlen', hpw, hhead with
  | r :: tr', hlen2, hpw2, hhead2 =>
    have hr' : r = res := by
      simp only [List.head?_cons, Option.some_inj] at hhead2
      exact hhead2
    have htr' : tr' ≠ [] := by
      intro hemp
      rw [hemp] at hlen2
      simp at hlen2
      omega
    have hlast2 : (r :: tr').getLast? = some cube := by simpa using hlast
    have hcube_mem : cube ∈ tr' := by
      match tr', htr' with
      | y :: tr'', _ =>
        rw [List.getLast?_cons_cons] at hlast2
        exact List.mem_of_mem_getLast? (by simp [hlast2])
    have hpair := (List.pairwise_cons.mp hpw2).1 cube hcube_mem
    rw [hr'] at hpair
    exact hpair

/-- Witness for C9 on a concrete two-step run with draws `[0, 1]`. -/
theorem C9_randomizer_no_revisit_witness :
    ([(solved.transform 0).transform 1, solved.transform 0, solved].length = 2 + 1 ∧
     List.Pairwise (fun a b => ¬cfgEq a b)
       [(solved.transform 0).transform 1, solved.transform 0, solved] ∧
     [(solved.transform 0).transform 1, solved.transform 0, solved].getLast?
       = some solved ∧
     randomize solved 2 [0, 1]
       = [(solved.transform 0).transform 1, solved.transform 0, solved].head? ∧
     (1 ≤ 2 → ∀ res, randomize solved 2 [0, 1] = some res → ¬cfgEq res solved)) :=
  C9_randomizer_no_revisit solved 2 [0, 1]
    [(solved.transform 0).transform 1, solved.transform 0, solved] (by rfl)

/-! ## Characterizations of the expansion helpers -/

lemma expandDst_eq (latest : Rubiks2x2) :
    ∀ (ts : List (Fin 6)) (dq gs : List Rubiks2x2),
      expandDst latest ts dq gs
        = (dq ++ ts.map (latest.transform ·),
           (ts.map (latest.transform ·)).reverse ++ gs) := by
  intro ts
  induction ts with
  | nil => intro dq gs; simp [expandDst]
  | cons t ts' ih =>
    intro dq gs
    show expandDst latest ts' (dq ++ [latest.transform t]) (latest.transform t :: gs) = _
    rw [ih]
    simp

lemma solveExpand_inl (goal latest : Rubiks2x2) :
    ∀ (ts : List (Fin 6)) (l : List Rubiks2x2),
      solveExpand goal latest ts = .inl l → l = ts.map (latest.transform ·) := by
  intro ts
  induction ts with
  | nil =>
    intro l h
    cases h
    rfl
  | cons t ts' ih =>
    intro l h
    by_cases hc : cfgEq (latest.transform t) goal
    · rw [show solveExpand goal latest (t :: ts')
          = .inr (latest.transform t) by simp [solveExpand, hc]] at h
      cases h
    · rw [show solveExpand goal latest (t :: ts')
          = (match solveExpand goal latest ts' with
             | .inl l => .inl (latest.transform t :: l)
             | .inr r => .inr r) by simp [solveExpand, hc]] at h
      cases hrec : solveExpand goal latest ts' with
      | inl l' =>
        rw [hrec] at h
        cases h
        rw [ih l' hrec]
        rfl
      | inr r =>
        rw [hrec] at h
        cases h

lemma solveExpand_inr (goal latest : Rubiks2x2) :
    ∀ (ts : List (Fin 6)) (r : Rubiks2x2),
      solveExpand goal latest ts = .inr r →
      ∃ t ∈ ts, r = latest.transform t ∧ cfgEq r goal := by
  intro ts
  induction ts with
  | nil => intro r h; cases h
  | cons t ts' ih =>
    intro r h
    by_cases hc : cfgEq (latest.transform t) goal
    · rw [show solveExpand goal latest (t :: ts')
          = .inr (latest.transform t) by simp [solveExpand, hc]] at h
      cases h
      exact ⟨t, by simp, rfl, hc⟩
    · rw [show solveExpand goal latest (t :: ts')
          = (match solveExpand goal latest ts' with
             | .inl l => .inl (latest.transform t :: l)
             | .inr r => .inr r) by simp [solveExpand, hc]] at h
      cases hrec : solveExpand goal latest ts' with
      | inl l' => rw [hrec] at h; cases h
      | inr r2 =>
        rw [hrec] at h
        have hr2 : r2 = r := by simpa using h
        subst hr2
        obtain ⟨t', ht', heq, hgoal⟩ := ih r2 hrec
        exact ⟨t', by simp [ht'], heq, hgoal⟩

lemma solveExpand_hit (goal latest : Rubiks2x2) :
    ∀ (ts : List (Fin 6)),
      (∃ t ∈ ts, cfgEq (latest.transform t) goal) →
      ∃ r, solveExpand goal latest ts = .inr r := by
  intro ts
  induction ts with
  | nil => rintro ⟨t, ht, _⟩; cases ht
  | cons t ts' ih =>
    rintro ⟨t', ht', hc⟩
    by_cases hc0 : cfgEq (latest.transform t) goal
    · exact ⟨latest.transform t, by simp [solveExpand, hc0]⟩
    · have ht'' : t' ∈ ts' := by
        cases List.mem_cons.mp ht' with
        | inl h => exact absurd (h ▸ hc) hc0
        | inr h => exact h
      obtain ⟨r, hr⟩ := ih ⟨t', ht'', hc⟩
      exact ⟨r, by simp [solveExpand, hc0, hr]⟩

lemma expandSrc_inl (gs : List Rubiks2x2) (latest : Rubiks2x2) :
    ∀ (ts : List (Fin 6)) (l : List Rubiks2x2),
      expandSrc gs latest ts = .inl l → l = ts.map (latest.transform ·) := by
  intro ts
  induction ts with
  | nil => intro l h; cases h; rfl
  | cons t ts' ih =>
    intro l h
    cases hf : gs.find? (fun g => decide (cfgEq (latest.transform t) g)) with
    | some rem =>
      rw [show expandSrc gs latest (t :: ts')
          = .inr (reconstruct (latest.transform t) rem) by
        simp [expandSrc, hf]] at h
      cases h
    | none =>
      rw [show expandSrc gs latest (t :: ts')
          = (match expandSrc gs latest ts' with
             | .inl l => .inl (latest.transform t :: l)
             | .inr r => .inr r) by simp [expandSrc, hf]] at h
      cases hrec : expandSrc gs latest ts' with
      | inl l' =>
        rw [hrec] at h
        have : latest.transform t :: l' = l := by simpa using h
        rw [← this, ih l' hrec]
        rfl
      | inr r => rw [hrec] at h; cases h

lemma expandSrc_inr (gs : List Rubiks2x2) (latest : Rubiks2x2) :
    ∀ (ts : List (Fin 6)) (r : Rubiks2x2),
      expandSrc gs latest ts = .inr r →
      ∃ t ∈ ts, ∃ rem,
        gs.find? (fun g => decide (cfgEq (latest.transform t) g)) = some rem ∧
        r = reconstruct (latest.transform t) rem := by
  intro ts
  induction ts with
  | nil => intro r h; cases h
  | cons t ts' ih =>
    intro r h
    cases hf : gs.find? (fun g => decide (cfgEq (latest.transform t) g)) with
    | some rem =>
      rw [show expandSrc gs latest (t :: ts')
          = .inr (reconstruct (latest.transform t) rem) by
        simp [expandSrc, hf]] at h
      have : reconstruct (latest.transform t) rem = r := by simpa using h
      exact ⟨t, by simp, rem, hf, this.symm⟩
    | none =>
      rw [show expandSrc gs latest (t :: ts')
          = (match expandSrc gs latest ts' with
             | .inl l => .inl (latest.transform t :: l)
             | .inr r => .inr r) by simp [expandSrc, hf]] at h
      cases hrec : expandSrc gs latest ts' with
      | inl l' => rw [hrec] at h; cases h
      | inr r2 =>
        rw [hrec] at h
        have hr2 : r2 = r := by simpa using h
        subst hr2
        obtain ⟨t', ht', rem, hfind, heq⟩ := ih r2 hrec
        exact ⟨t', by simp [ht'], rem, hfind, heq⟩

lemma expandSrc_hit (gs : List Rubiks2x2) (latest : Rubiks2x2) :
    ∀ (ts : List (Fin 6)),
      (∃ t ∈ ts, ∃ g ∈ gs, cfgEq (latest.transform t) g) →
      ∃ r, expandSrc gs latest ts = .inr r := by
  intro ts
  induction ts with
  | nil => rintro ⟨t, ht, _⟩; cases ht
  | cons t ts' ih =>
    rintro ⟨t', ht', g, hg, hc⟩
    cases hf : gs.find? (fun g => decide (cfgEq (latest.transform t) g)) with
    | some rem =>
      exact ⟨reconstruct (latest.transform t) rem, by simp [expandSrc, hf]⟩
    | none =>
      have ht'' : t' ∈ ts' := by
        cases List.mem_cons.mp ht' with
        | inl h =>
          subst h
          have := List.find?_eq_none.mp hf g hg
          simp at this
          exact absurd hc this
        | inr h => exact h
      obtain ⟨r, hr⟩ := ih ⟨t', ht'', g, hg, hc⟩
      exact ⟨r, by simp [expandSrc, hf, hr]⟩

/-! ## Reconstruction lemmas -/

lemma rootOf_reconstruct : ∀ (rem ns : Rubiks2x2),
    rootOf (reconstruct ns rem) = rootOf ns
  | .mk _ none pm, ns => by cases pm <;> rfl
  | .mk _ (some p) none, ns => by
    show rootOf (reconstruct ns p) = rootOf ns
    exact rootOf_reconstruct p ns
  | .mk _ (some p) (some m), ns => by
    show rootOf (reconstruct (ns.transform (invMove m)) p) = rootOf ns
    rw [rootOf_reconstruct p (ns.transform (invMove m))]
    rfl

lemma reconstruct_rooted {cF : List ℕ} : ∀ (rem ns : Rubiks2x2),
    Rooted cF ns → Rooted cF (reconstruct ns rem)
  | .mk _ none pm, ns => by cases pm <;> exact fun h => h
  | .mk _ (some p) none, ns => fun h => reconstruct_rooted p ns h
  | .mk _ (some p) (some m), ns => fun h =>
    reconstruct_rooted p (ns.transform (invMove m)) (h.transform (invMove m))

lemma applyMove_invMove (m : Fin 6) (v : List ℕ) (h : v.length = 24) :
    applyMove (invMove m) (applyMove m v) = v := by
  rw [applyMove_eq (invMove m)]
  have key : ∀ k : Fin 24,
      (applyMove m v).getD (srcMap (invMove m) k).1 0 = v.getD k.1 0 := by
    intro k
    rw [applyMove_getD]
    rw [show srcMap m (srcMap (invMove m) k) = k from srcMap_inv m k]
  calc (List.finRange 24).map (fun k => (applyMove m v).getD (srcMap (invMove m) k).1 0)
      = (List.finRange 24).map (fun k => v.getD k.1 0) :=
        List.map_congr_left (fun k _ => key k)
    _ = v := eq_map_getD_of_length v h

lemma Rooted.faces_length {base : List ℕ} {c : Rubiks2x2} (h : Rooted base c)
    (hb : base.length = 24) : c.faces.length = 24 := by
  induction h with
  | root pm => exact hb
  | step p m hp ih => exact applyMove_length m p.faces

/-- Replaying the reconstruction loop on a goal-rooted remainder chain
lands exactly on the goal's facelet array. -/
lemma reconstruct_faces {gF : List ℕ} (h24 : gF.length = 24) :
    ∀ (rem ns : Rubiks2x2), Rooted gF rem → ns.faces = rem.faces →
      (reconstruct ns rem).faces = gF
  | .mk f none pm, ns => by
    intro hr hf
    cases hr
    exact hf
  | .mk f (some p) none, ns => by
    intro hr
    cases hr
  | .mk f (some p) (some m), ns => by
    intro hr hf
    cases hr with
    | step _ _ hp =>
      show (reconstruct (ns.transform (invMove m)) p).faces = gF
      refine reconstruct_faces h24 p (ns.transform (invMove m)) hp ?_
      show applyMove (invMove m) ns.faces = p.faces
      rw [hf]
      show applyMove (invMove m) (applyMove m p.faces) = p.faces
      exact applyMove_invMove m p.faces (hp.faces_length h24)

/-- What a successful goal-set lookup yields: a member whose faces
equal the probe's. -/
lemma find?_cfgEq (gs : List Rubiks2x2) (x rem : Rubiks2x2)
    (h : gs.find? (fun g => decide (cfgEq x g)) = some rem) :
    rem ∈ gs ∧ x.faces = rem.faces := by
  refine ⟨List.mem_of_find?_eq_some h, ?_⟩
  have := List.find?_some h
  exact of_decide_eq_true this

/-! ## Claim C2: bidirectional reconstruction correctness -/

/-- Invariant of the `solve_2way` loop: if every start-side queue
entry is rooted at the start copy's faces and every goal lookup entry
is rooted at the goal's faces, any returned configuration has the
goal's faces and is rooted at the start copy's faces. -/
lemma solve2Loop_sound (goal : Rubiks2x2) (cF : List ℕ)
    (h24 : goal.faces.length = 24) :
    ∀ (fuel : ℕ) (srcq dstq gs : List Rubiks2x2) (res : Rubiks2x2),
      (∀ c ∈ srcq, Rooted cF c) → (∀ c ∈ gs, Rooted goal.faces c) →
      (∀ c ∈ dstq, Rooted goal.faces c) →
      solve2Loop goal fuel srcq dstq gs = some res →
      res.faces = goal.faces ∧ Rooted cF res := by
  intro fuel
  induction fuel with
  | zero => intro _ _ _ _ _ _ _ h; cases h
  | succ n ih =>
    intro srcq dstq gs res hsrc hgs hdst hrun
    match srcq, dstq with
    | [], _ => cases hrun
    | _ :: _, [] => cases hrun
    | latest_src :: srest, latest_dst :: drest =>
      rw [solve2Loop] at hrun
      have hgs' : ∀ c ∈ (expandDst latest_dst allMoves drest gs).2,
          Rooted goal.faces c := by
        rw [expandDst_eq]
        intro c hc
        rcases List.mem_append.mp hc with hc | hc
        · obtain ⟨t, _, ht⟩ := List.mem_map.mp (List.mem_reverse.mp hc)
          exact ht ▸ (hdst latest_dst (by simp)).transform t
        · exact hgs c hc
      have hdst' : ∀ c ∈ (expandDst latest_dst allMoves drest gs).1,
          Rooted goal.faces c := by
        rw [expandDst_eq]
        intro c hc
        rcases List.mem_append.mp hc with hc | hc
        · exact hdst c (by simp [hc])
        · obtain ⟨t, _, ht⟩ := List.mem_map.mp hc
          exact ht ▸ (hdst latest_dst (by simp)).transform t
      cases hexp : expandSrc (expandDst latest_dst allMoves drest gs).2
          latest_src allMoves with
      | inr r =>
        rw [hexp] at hrun
        have hres : r = res := by simpa using hrun
        subst hres
        obtain ⟨t, _, rem, hfind, heq⟩ := expandSrc_inr _ _ _ _ hexp
        obtain ⟨hremmem, hfaces⟩ := find?_cfgEq _ _ _ hfind
        have hrem_rooted := hgs' rem hremmem
        have hsrc_rooted : Rooted cF (latest_src.transform t) :=
          (hsrc latest_src (by simp)).transform t
        subst heq
        exact ⟨reconstruct_faces h24 rem (latest_src.transform t) hrem_rooted hfaces,
          reconstruct_rooted rem (latest_src.transform t) hsrc_rooted⟩
      | inl adds =>
        rw [hexp] at hrun
        refine ih (srest ++ adds) _ _ res ?_ hgs' hdst' hrun
        intro c hc
        rcases List.mem_append.mp hc with hc | hc
        · exact hsrc c (by simp [hc])
        · rw [expandSrc_inl _ _ _ _ hexp] at hc
          obtain ⟨t, _, ht⟩ := List.mem_map.mp hc
          exact ht ▸ (hsrc latest_src (by simp)).transform t

/-- Whenever `solve_2way` returns a configuration, replaying its
ancestry chain's moves from the original start configuration produces
the goal's facelet array. -/
lemma solve2way_replay (fuel : ℕ) (cube goal res : Rubiks2x2)
    (h24 : goal.faces.length = 24)
    (h : solve_2way fuel cube goal = some res) :
    replay cube.faces (movesOf res) = goal.faces := by
  have hsound := solve2Loop_sound goal cube.faces h24 fuel
    [.mk cube.faces none none] [.mk goal.faces none none] [.mk goal.faces none none]
    res ?_ ?_ ?_ h
  · rw [hsound.2.replay_eq]
    exact hsound.1
  · intro c hc
    rw [List.mem_singleton.mp hc]
    exact Rooted.root none
  · intro c hc
    rw [List.mem_singleton.mp hc]
    exact Rooted.root none
  · intro c hc
    rw [List.mem_singleton.mp hc]
    exact Rooted.root none

/-- Claim C2: whenever `solve_2way` returns a configuration,
replaying its ancestry chain's moves, in order, from the original
start configuration produces a facelet array exactly equal to the
goal's facelet array. -/
theorem C2_bidirectional_correctness (fuel : ℕ) (cube goal res : Rubiks2x2)
    (h24 : goal.faces.length = 24)
    (h : solve_2way fuel cube goal = some res) :
    replay cube.faces (movesOf res) = goal.faces :=
  solve2way_replay fuel cube goal res h24 h

/-- Witness for C2 on a concrete one-move scramble solved back to the
solved state. -/
theorem C2_bidirectional_correctness_witness :
    (solved.faces.length = 24) ∧
      replay (Rubiks2x2.mk (applyMove 0 solvedFaces) none none).faces
        (movesOf ((Rubiks2x2.mk (applyMove 0 solvedFaces) none none).transform 5))
        = solved.faces :=
  ⟨by decide,
    C2_bidirectional_correctness 2 (.mk (applyMove 0 solvedFaces) none none) solved
      ((Rubiks2x2.mk (applyMove 0 solvedFaces) none none).transform 5)
      (by decide) (by rfl)⟩

/-! ## Claim C10: searches reset ancestry to a fresh root -/

lemma popMin_mem (goal : Rubiks2x2) :
    ∀ (q : List Rubiks2x2) (m : Rubiks2x2) (rest : List Rubiks2x2),
      popMin goal q = some (m, rest) → m ∈ q ∧ ∀ x ∈ rest, x ∈ q := by
  intro q
  induction q with
  | nil => intro m rest h; cases h
  | cons c q0 ih =>
    intro m rest h
    cases hrec : popMin goal q0 with
    | none =>
      rw [show popMin goal (c :: q0) = some (c, []) by simp [popMin, hrec]] at h
      obtain ⟨hm, hrest⟩ := Prod.mk.injEq .. ▸ (Option.some_inj.mp h)
      subst hm hrest
      exact ⟨by simp, by simp⟩
    | some p =>
      match p, hrec with
      | (m0, rest0), hrec =>
        by_cases hle : c.dist goal ≤ m0.dist goal
        · rw [show popMin goal (c :: q0) = some (c, q0) by
            simp [popMin, hrec, hle]] at h
          obtain ⟨hm, hrest⟩ := Prod.mk.injEq .. ▸ (Option.some_inj.mp h)
          subst hm hrest
          exact ⟨by simp, fun x hx => by simp [hx]⟩
        · rw [show popMin goal (c :: q0) = some (m0, c :: rest0) by
            simp [popMin, hrec, hle]] at h
          obtain ⟨hm, hrest⟩ := Prod.mk.injEq .. ▸ (Option.some_inj.mp h)
          subst hm hrest
          obtain ⟨hm0, hr0⟩ := ih m0 rest0 hrec
          refine ⟨by simp [hm0], fun x hx => ?_⟩
          rcases List.mem_cons.mp hx with hx | hx
          · simp [hx]
          · simp [hr0 x hx]

lemma pqExpand_inr (goal latest : Rubiks2x2) :
    ∀ (ts : List (Fin 6)) (q vis : List Rubiks2x2) (r : Rubiks2x2),
      pqExpand goal latest ts q vis = .inr r → ∃ t ∈ ts, r = latest.transform t := by
  intro ts
  induction ts with
  | nil => intro q vis r h; cases h
  | cons t ts' ih =>
    intro q vis r h
    by_cases hc : cfgEq (latest.transform t) goal
    · rw [show pqExpand goal latest (t :: ts') q vis = .inr (latest.transform t) by
        simp [pqExpand, hc]] at h
      have : latest.transform t = r := by simpa using h
      exact ⟨t, by simp, this.symm⟩
    · by_cases hv : vis.any (fun v => decide (cfgEq (latest.transform t) v))
      · rw [show pqExpand goal latest (t :: ts') q vis
            = pqExpand goal latest ts' q vis by simp [pqExpand, hc, hv]] at h
        obtain ⟨t', ht', heq⟩ := ih q vis r h
        exact ⟨t', by simp [ht'], heq⟩
      · rw [show pqExpand goal latest (t :: ts') q vis
            = pqExpand goal latest ts' (q ++ [latest.transform t])
                (vis ++ [latest.transform t]) by simp [pqExpand, hc, hv]] at h
        obtain ⟨t', ht', heq⟩ := ih _ _ r h
        exact ⟨t', by simp [ht'], heq⟩

lemma pqExpand_inl (goal latest : Rubiks2x2) :
    ∀ (ts : List (Fin 6)) (q vis : List Rubiks2x2) (pr : List Rubiks2x2 × List Rubiks2x2),
      pqExpand goal latest ts q vis = .inl pr →
      ∀ x ∈ pr.1, x ∈ q ∨ ∃ t ∈ ts, x = latest.transform t := by
  intro ts
  induction ts with
  | nil =>
    intro q vis pr h x hx
    have : (q, vis) = pr := by simpa [pqExpand] using h
    subst this
    exact Or.inl hx
  | cons t ts' ih =>
    intro q vis pr h x hx
    by_cases hc : cfgEq (latest.transform t) goal
    · rw [show pqExpand goal latest (t :: ts') q vis = .inr (latest.transform t) by
        simp [pqExpand, hc]] at h
      cases h
    · by_cases hv : vis.any (fun v => decide (cfgEq (latest.transform t) v))
      · rw [show pqExpand goal latest (t :: ts') q vis
            = pqExpand goal latest ts' q vis by simp [pqExpand, hc, hv]] at h
        rcases ih q vis pr h x hx with h' | ⟨t', ht', heq⟩
        · exact Or.inl h'
        · exact Or.inr ⟨t', by simp [ht'], heq⟩
      · rw [show pqExpand goal latest (t :: ts') q vis
            = pqExpand goal latest ts' (q ++ [latest.transform t])
                (vis ++ [latest.transform t]) by simp [pqExpand, hc, hv]] at h
        rcases ih _ _ pr h x hx with h' | ⟨t', ht', heq⟩
        · rcases List.mem_append.mp h' with h'' | h''
          · exact Or.inl h''
          · exact Or.inr ⟨t, by simp, by simpa using h''⟩
        · exact Or.inr ⟨t', by simp [ht'], heq⟩

lemma solveLoop_root (goal : Rubiks2x2) (s0 : Rubiks2x2) :
    ∀ (fuel : ℕ) (q : List Rubiks2x2) (res : Rubiks2x2),
      (∀ c ∈ q, rootOf c = s0) →
      solveLoop goal fuel q = some res → rootOf res = s0 := by
  intro fuel
  induction fuel with
  | zero => intro q res _ h; cases h
  | succ n ih =>
    intro q res hq hrun
    match q with
    | [] => cases hrun
    | latest :: rest =>
      rw [solveLoop] at hrun
      cases hexp : solveExpand goal latest allMoves with
      | inr r =>
        rw [hexp] at hrun
        have hres : r = res := by simpa using hrun
        subst hres
        obtain ⟨t, _, heq, _⟩ := solveExpand_inr _ _ _ _ hexp
        rw [heq, rootOf_transform]
        exact hq latest (by simp)
      | inl children =>
        rw [hexp] at hrun
        refine ih (rest ++ children) res ?_ hrun
        intro c hc
        rcases List.mem_append.mp hc with hc | hc
        · exact hq c (by simp [hc])
        · rw [solveExpand_inl _ _ _ _ hexp] at hc
          obtain ⟨t, _, ht⟩ := List.mem_map.mp hc
          rw [← ht, rootOf_transform]
          exact hq latest (by simp)

lemma solve2Loop_root (goal : Rubiks2x2) (s0 : Rubiks2x2) :
    ∀ (fuel : ℕ) (srcq dstq gs : List Rubiks2x2) (res : Rubiks2x2),
      (∀ c ∈ srcq, rootOf c = s0) →
      solve2Loop goal fuel srcq dstq gs = some res → rootOf res = s0 := by
  intro fuel
  induction fuel with
  | zero => intro _ _ _ _ _ h; cases h
  | succ n ih =>
    intro srcq dstq gs res hsrc hrun
    match srcq, dstq with
    | [], _ => cases hrun
    | _ :: _, [] => cases hrun
    | latest_src :: srest, latest_dst :: drest =>
      rw [solve2Loop] at hrun
      cases hexp : expandSrc (expandDst latest_dst allMoves drest gs).2
          latest_src allMoves with
      | inr r =>
        rw [hexp] at hrun
        have hres : r = res := by simpa using hrun
        subst hres
        obtain ⟨t, _, rem, _, heq⟩ := expandSrc_inr _ _ _ _ hexp
        rw [heq, rootOf_reconstruct, rootOf_transform]
        exact hsrc latest_src (by simp)
      | inl adds =>
        rw [hexp] at hrun
        refine ih (srest ++ adds) _ _ res ?_ hrun
        intro c hc
        rcases List.mem_append.mp hc with hc | hc
        · exact hsrc c (by simp [hc])
        · rw [expandSrc_inl _ _ _ _ hexp] at hc
          obtain ⟨t, _, ht⟩ := List.mem_map.mp hc
          rw [← ht, rootOf_transform]
          exact hsrc latest_src (by simp)

lemma pqLoop_root (goal : Rubiks2x2) (s0 : Rubiks2x2) :
    ∀ (fuel : ℕ) (q vis : List Rubiks2x2) (res : Rubiks2x2),
      (∀ c ∈ q, rootOf c = s0) →
      pqLoop goal fuel q vis = some res → rootOf res = s0 := by
  intro fuel
  induction fuel with
  | zero => intro _ _ _ _ h; cases h
  | succ n ih =>
    intro q vis res hq hrun
    rw [pqLoop] at hrun
    cases hpop : popMin goal q with
    | none => rw [hpop] at hrun; cases hrun
    | some pr =>
      match pr, hpop with
      | (latest, rest), hpop =>
        rw [hpop] at hrun
        obtain ⟨hlat, hrest⟩ := popMin_mem goal q latest rest hpop
        have hrun2 : (match pqExpand goal latest allMoves rest vis with
            | Sum.inr r => some r
            | Sum.inl p => pqLoop goal n p.1 p.2) = some res := hrun
        clear hrun
        cases hexp : pqExpand goal latest allMoves rest vis with
        | inr r =>
          rw [hexp] at hrun2
          have hres : r = res := by simpa using hrun2
          subst hres
          obtain ⟨t, _, heq⟩ := pqExpand_inr _ _ _ _ _ _ hexp
          rw [heq, rootOf_transform]
          exact hq latest hlat
        | inl p =>
          rw [hexp] at hrun2
          refine ih p.1 p.2 res ?_ hrun2
          intro c hc
          rcases pqExpand_inl _ _ _ _ _ _ hexp c hc with h' | ⟨t, _, ht⟩
          · exact hq c (hrest c h')
          · rw [ht, rootOf_transform]
            exact hq latest hlat

/-- Claim C10: all three search strategies seed their frontier with a
fresh configuration built from only the input's facelet array, with no
parent and no parent move; the ancestry chain of any returned solution
terminates at that fresh copy and never extends into the input's prior
parent chain. -/
theorem C10_fresh_search_roots :
    (∀ (fuel : ℕ) (cube goal res : Rubiks2x2),
        solve fuel cube goal = some res →
        rootOf res = .mk cube.faces none none) ∧
    (∀ (fuel : ℕ) (cube goal res : Rubiks2x2),
        solve_2way fuel cube goal = some res →
        rootOf res = .mk cube.faces none none) ∧
    (∀ (fuel : ℕ) (cube goal res : Rubiks2x2),
        solve_pq fuel cube goal = some res →
        rootOf res = .mk cube.faces none none) := by
  refine ⟨?_, ?_, ?_⟩
  · intro fuel cube goal res h
    refine solveLoop_root goal _ fuel _ res ?_ h
    intro c hc
    rw [List.mem_singleton.mp hc]
    rfl
  · intro fuel cube goal res h
    refine solve2Loop_root goal _ fuel _ _ _ res ?_ h
    intro c hc
    rw [List.mem_singleton.mp hc]
    rfl
  · intro fuel cube goal res h
    refine pqLoop_root goal _ fuel _ _ res ?_ h
    intro c hc
    rw [List.mem_singleton.mp hc]
    rfl

/-- Witness for C10: on the solved-to-solved search, all three
strategies return a configuration whose chain root is the fresh copy
of the input. -/
theorem C10_fresh_search_roots_witness :
    (rootOf (((Rubiks2x2.mk solvedFaces none none).transform 0).transform 5)
        = .mk solved.faces none none) ∧
    (rootOf (((Rubiks2x2.mk solvedFaces none none).transform 0).transform 5)
        = .mk solved.faces none none) ∧
    (rootOf (((Rubiks2x2.mk solvedFaces none none).transform 0).transform 5)
        = .mk solved.faces none none) :=
  ⟨C10_fresh_search_roots.1 3 solved solved _ (by rfl),
   C10_fresh_search_roots.2.1 2 solved solved _ (by rfl),
   C10_fresh_search_roots.2.2 2 solved solved _ (by rfl)⟩

/-! ## Claim C6: the solved-to-solved search -/

/-- Counterexample to C6: the searches check only children of
expanded nodes against the goal, so searching solved→solved does not
return a zero-length path: both BFS variants return the two-move path
`[front, front⁻¹]`. -/
theorem C6_counterexample :
    Rubiks2x2.dist solved solved = 0 ∧
    (solve 3 solved solved).map movesOf = some [0, 5] ∧
    (solve_2way 2 solved solved).map movesOf = some [0, 5] ∧
    (solve 3 solved solved).map movesOf ≠ some [] ∧
    (solve_2way 2 solved solved).map movesOf ≠ some [] := by
  have h1 : (solve 3 solved solved).map movesOf = some [0, 5] := by decide
  have h2 : (solve_2way 2 solved solved).map movesOf = some [0, 5] := by decide
  refine ⟨by decide, h1, h2, ?_, ?_⟩
  · rw [h1]; decide
  · rw [h2]; decide

/-- Amended C6: `dist(solved, solved) = 0`, and searching
solved→solved returns a 2-step path (a move followed by its inverse)
rather than a zero-length path, because both BFS variants test only
the children of expanded nodes for goal equality. -/
theorem C6_solved_fixed_point :
    Rubiks2x2.dist solved solved = 0 ∧
    (solve 3 solved solved).map (fun r => (movesOf r).length) = some 2 ∧
    (solve_2way 2 solved solved).map (fun r => (movesOf r).length) = some 2 := by
  refine ⟨by decide, by decide, by decide⟩

/-! ## Claim C3: BFS depth bounds -/

/-- The queue of the forward BFS is depth-sorted: ancestry lengths are
nondecreasing from front to back. -/
def DSorted (q : List Rubiks2x2) : Prop :=
  List.Pairwise (fun a b => (movesOf a).length ≤ (movesOf b).length) q

/-- The queue of the forward BFS spans at most two consecutive depth
levels. -/
def DBounded (q : List Rubiks2x2) : Prop :=
  ∀ a ∈ q, ∀ b ∈ q, (movesOf a).length ≤ (movesOf b).length + 1

/-- A queue entry at position `idx` from which a known move word `ws`
reaches the goal's facelet array within a total budget of `k` moves. -/
def PromisedAt (goal : Rubiks2x2) (q : List Rubiks2x2) (idx : ℕ)
    (ws : List (Fin 6)) (k : ℕ) : Prop :=
  ∃ c, q.get? idx = some c ∧ replay c.faces ws = goal.faces ∧
    (movesOf c).length + ws.length ≤ k

lemma get?_some_lt {α : Type} (l : List α) (n : ℕ) (a : α)
    (h : l.get? n = some a) : n < l.length := by
  by_contra hc
  rw [List.get?_eq_none.mpr (by omega)] at h
  cases h

lemma movesOf_length_transform (c : Rubiks2x2) (m : Fin 6) :
    (movesOf (c.transform m)).length = (movesOf c).length + 1 := by
  rw [movesOf_transform]
  simp

lemma replay_cons (base : List ℕ) (m : Fin 6) (ms : List (Fin 6)) :
    replay base (m :: ms) = replay (applyMove m base) ms := rfl

lemma allMoves_get? (w : Fin 6) : allMoves.get? w.1 = some w := by
  revert w; decide

lemma allMoves_mem (w : Fin 6) : w ∈ allMoves := by
  revert w; decide

/-- One BFS expansion step preserves depth-sortedness and the
two-level bound. -/
lemma bfs_step_preserve (latest : Rubiks2x2) (rest : List Rubiks2x2)
    (hs : DSorted (latest :: rest)) (hb : DBounded (latest :: rest)) :
    DSorted (rest ++ allMoves.map (latest.transform ·)) ∧
    DBounded (rest ++ allMoves.map (latest.transform ·)) := by
  have hch : ∀ x ∈ allMoves.map (latest.transform ·),
      (movesOf x).length = (movesOf latest).length + 1 := by
    intro x hx
    obtain ⟨t, _, ht⟩ := List.mem_map.mp hx
    rw [← ht, movesOf_length_transform]
  have hhead : ∀ c ∈ latest :: rest,
      (movesOf latest).length ≤ (movesOf c).length := by
    intro c hc
    rcases List.mem_cons.mp hc with hc | hc
    · rw [hc]
    · exact (List.pairwise_cons.mp hs).1 c hc
  constructor
  · rw [DSorted, List.pairwise_append]
    refine ⟨(List.pairwise_cons.mp hs).2, ?_, ?_⟩
    · refine List.pairwise_of_forall_mem_list ?_
      intro a ha b hb'
      rw [hch a ha, hch b hb']
    · intro a ha b hb'
      rw [hch b hb']
      exact hb a (by simp [ha]) latest (by simp)
  · intro a ha b hb'
    rcases List.mem_append.mp ha with ha | ha <;>
      rcases List.mem_append.mp hb' with hb'' | hb''
    · exact hb a (by simp [ha]) b (by simp [hb''])
    · rw [hch b hb'']
      have := hb a (by simp [ha]) latest (by simp)
      omega
    · rw [hch a ha]
      have := hhead b (by simp [hb''])
      omega
    · rw [hch a ha, hch b hb'']
      omega

/-- The forward BFS, fed a queue holding a promised configuration at
some position with a move word reaching the goal within budget `k`,
returns (for sufficient fuel) a solution of ancestry length at most
`k` whose faces equal the goal's faces. -/
lemma solveLoop_finds (goal : Rubiks2x2) (cF : List ℕ) (k : ℕ) :
    ∀ ws : List (Fin 6), ws ≠ [] →
    ∀ idx : ℕ, ∀ q : List Rubiks2x2,
      DSorted q → DBounded q → (∀ c ∈ q, Rooted cF c) →
      PromisedAt goal q idx ws k →
      ∃ fuel res, solveLoop goal fuel q = some res ∧
        (movesOf res).length ≤ k ∧ res.faces = goal.faces ∧ Rooted cF res := by
  intro ws
  induction ws with
  | nil => intro h; exact absurd rfl h
  | cons w ws' ihw =>
    intro _ idx
    induction idx with
    | zero =>
      intro q hs hb hr hp
      obtain ⟨c, hget, hrep, hlen⟩ := hp
      cases q with
      | nil => cases hget
      | cons latest rest =>
        have hc : latest = c := by simpa using hget
        subst hc
        cases hexp : solveExpand goal latest allMoves with
        | inr r =>
          obtain ⟨t, _, heq, hgoal⟩ := solveExpand_inr _ _ _ _ hexp
          refine ⟨1, r, ?_, ?_, hgoal, ?_⟩
          · rw [solveLoop, hexp]
          · rw [heq, movesOf_length_transform]
            have hws : (w :: ws').length ≥ 1 := by simp
            omega
          · rw [heq]
            exact (hr latest (by simp)).transform t
        | inl children =>
          have hchildren := solveExpand_inl _ _ _ _ hexp
          subst hchildren
          cases ws' with
          | nil =>
            exfalso
            have hhit : cfgEq (latest.transform w) goal := by
              show (latest.transform w).faces = goal.faces
              rw [faces_transform]
              exact hrep
            obtain ⟨r, hrr⟩ :=
              solveExpand_hit goal latest allMoves ⟨w, allMoves_mem w, hhit⟩
            exact absurd (hexp.symm.trans hrr) (by simp)
          | cons w2 ws2 =>
            obtain ⟨hs', hb'⟩ := bfs_step_preserve latest rest hs hb
            have hr' : ∀ c ∈ rest ++ allMoves.map (latest.transform ·),
                Rooted cF c := by
              intro c hc
              rcases List.mem_append.mp hc with hc | hc
              · exact hr c (by simp [hc])
              · obtain ⟨t, _, ht⟩ := List.mem_map.mp hc
                exact ht ▸ (hr latest (by simp)).transform t
            have hp' : PromisedAt goal (rest ++ allMoves.map (latest.transform ·))
                (rest.length + w.1) (w2 :: ws2) k := by
              refine ⟨latest.transform w, ?_, ?_, ?_⟩
              · rw [List.get?_append_right (by omega)]
                rw [show rest.length + w.1 - rest.length = w.1 by omega]
                rw [List.get?_map, allMoves_get? w]
                rfl
              · rw [faces_transform, ← replay_cons]
                exact hrep
              · rw [movesOf_length_transform]
                have : (w :: w2 :: ws2).length = (w2 :: ws2).length + 1 := by simp
                omega
            obtain ⟨fuel, res, hrun, hbound, hfaces, hroot⟩ :=
              ihw (by simp) (rest.length + w.1) _ hs' hb' hr' hp'
            refine ⟨fuel + 1, res, ?_, hbound, hfaces, hroot⟩
            rw [solveLoop, hexp]
            exact hrun
    | succ j ihj =>
      intro q hs hb hr hp
      obtain ⟨c, hget, hrep, hlen⟩ := hp
      cases q with
      | nil => cases hget
      | cons latest rest =>
        have hget' : rest.get? j = some c := by simpa using hget
        have hcmem : c ∈ latest :: rest := by
          exact List.get?_mem hget
        have hhead : (movesOf latest).length ≤ (movesOf c).length := by
          rcases List.mem_cons.mp hcmem with hc | hc
          · rw [hc]
          · exact (List.pairwise_cons.mp hs).1 c hc
        cases hexp : solveExpand goal latest allMoves with
        | inr r =>
          obtain ⟨t, _, heq, hgoal⟩ := solveExpand_inr _ _ _ _ hexp
          refine ⟨1, r, ?_, ?_, hgoal, ?_⟩
          · rw [solveLoop, hexp]
          · rw [heq, movesOf_length_transform]
            have hws : (w :: ws').length ≥ 1 := by simp
            omega
          · rw [heq]
            exact (hr latest (by simp)).transform t
        | inl children =>
          have hchildren := solveExpand_inl _ _ _ _ hexp
          subst hchildren
          obtain ⟨hs', hb'⟩ := bfs_step_preserve latest rest hs hb
          have hr' : ∀ c ∈ rest ++ allMoves.map (latest.transform ·),
              Rooted cF c := by
            intro c hc
            rcases List.mem_append.mp hc with hc | hc
            · exact hr c (by simp [hc])
            · obtain ⟨t, _, ht⟩ := List.mem_map.mp hc
              exact ht ▸ (hr latest (by simp)).transform t
          have hp' : PromisedAt goal (rest ++ allMoves.map (latest.transform ·))
              j (w :: ws') k := by
            refine ⟨c, ?_, hrep, hlen⟩
            rw [List.get?_append (get?_some_lt rest j c hget')]
            exact hget'
          obtain ⟨fuel, res, hrun, hbound, hfaces, hroot⟩ :=
            ihj _ hs' hb' hr' hp'
          refine ⟨fuel + 1, res, ?_, hbound, hfaces, hroot⟩
          rw [solveLoop, hexp]
          exact hrun

/-- Undoing a scramble: replaying the reversed, inverted move word of
`ms` from the scrambled array recovers the original 24-entry array. -/
lemma replay_scramble_inverse :
    ∀ (ms : List (Fin 6)) (g : List ℕ), g.length = 24 →
      replay (replay g ms) (ms.reverse.map invMove) = g := by
  intro ms
  induction ms with
  | nil => intro g _; rfl
  | cons m ms' ih =>
    intro g hg
    rw [replay_cons]
    rw [show (m :: ms').reverse.map invMove
        = ms'.reverse.map invMove ++ [invMove m] by simp]
    rw [replay_concat]
    rw [ih (applyMove m g) (applyMove_length m g)]
    exact applyMove_invMove m g hg

/-- The bidirectional loop, fed a start-side queue holding a promised
configuration with a move word reaching the goal's facelet array,
returns for sufficient fuel (the goal's own key is in the lookup set
from initialization on, so the final step of the promised word always
hits). -/
lemma solve2Loop_finds (goal : Rubiks2x2) :
    ∀ ws : List (Fin 6), ws ≠ [] →
    ∀ idx : ℕ, ∀ (srcq dstq gs : List Rubiks2x2),
      dstq ≠ [] → (∃ g ∈ gs, g.faces = goal.faces) →
      (∃ c, srcq.get? idx = some c ∧ replay c.faces ws = goal.faces) →
      ∃ fuel res, solve2Loop goal fuel srcq dstq gs = some res := by
  intro ws
  induction ws with
  | nil => intro h; exact absurd rfl h
  | cons w ws' ihw =>
    intro _ idx
    induction idx with
    | zero =>
      intro srcq dstq gs hdne hgkey hprom
      obtain ⟨c, hget, hrep⟩ := hprom
      cases srcq with
      | nil => cases hget
      | cons latest srest =>
        have hc : latest = c := by simpa using hget
        subst hc
        cases dstq with
        | nil => exact absurd rfl hdne
        | cons ld drest =>
          have hgkey' : ∃ g ∈ (expandDst ld allMoves drest gs).2,
              g.faces = goal.faces := by
            rw [expandDst_eq]
            obtain ⟨g, hg, hgf⟩ := hgkey
            exact ⟨g, List.mem_append.mpr (Or.inr hg), hgf⟩
          cases hexp : expandSrc (expandDst ld allMoves drest gs).2
              latest allMoves with
          | inr r =>
            refine ⟨1, r, ?_⟩
            rw [solve2Loop, hexp]
          | inl adds =>
            cases ws' with
            | nil =>
              exfalso
              obtain ⟨g, hg, hgf⟩ := hgkey'
              have hhit : cfgEq (latest.transform w) g := by
                show (latest.transform w).faces = g.faces
                rw [faces_transform, hgf]
                exact hrep
              obtain ⟨r, hrr⟩ :=
                expandSrc_hit _ latest allMoves ⟨w, allMoves_mem w, g, hg, hhit⟩
              exact absurd (hexp.symm.trans hrr) (by simp)
            | cons w2 ws2 =>
              have hadds := expandSrc_inl _ _ _ _ hexp
              subst hadds
              obtain ⟨fuel, res, hrun⟩ := ihw (by simp) (srest.length + w.1)
                (srest ++ allMoves.map (latest.transform ·))
                (expandDst ld allMoves drest gs).1
                (expandDst ld allMoves drest gs).2
                (by rw [expandDst_eq]; simp [allMoves])
                hgkey'
                ⟨latest.transform w, by
                    rw [List.get?_append_right (by omega)]
                    rw [show srest.length + w.1 - srest.length = w.1 by omega]
                    rw [List.get?_map, allMoves_get? w]
                    rfl,
                  by rw [faces_transform, ← replay_cons]; exact hrep⟩
              exact ⟨fuel + 1, res, by rw [solve2Loop, hexp]; exact hrun⟩
    | succ j ihj =>
      intro srcq dstq gs hdne hgkey hprom
      obtain ⟨c, hget, hrep⟩ := hprom
      cases srcq with
      | nil => cases hget
      | cons latest srest =>
        have hget' : srest.get? j = some c := by simpa using hget
        cases dstq with
        | nil => exact absurd rfl hdne
        | cons ld drest =>
          have hgkey' : ∃ g ∈ (expandDst ld allMoves drest gs).2,
              g.faces = goal.faces := by
            rw [expandDst_eq]
            obtain ⟨g, hg, hgf⟩ := hgkey
            exact ⟨g, List.mem_append.mpr (Or.inr hg), hgf⟩
          cases hexp : expandSrc (expandDst ld allMoves drest gs).2
              latest allMoves with
          | inr r =>
            refine ⟨1, r, ?_⟩
            rw [solve2Loop, hexp]
          | inl adds =>
            have hadds := expandSrc_inl _ _ _ _ hexp
            subst hadds
            obtain ⟨fuel, res, hrun⟩ := ihj
              (srest ++ allMoves.map (latest.transform ·))
              (expandDst ld allMoves drest gs).1
              (expandDst ld allMoves drest gs).2
              (by rw [expandDst_eq]; simp [allMoves])
              hgkey'
              ⟨c, by
                  rw [List.get?_append (get?_some_lt srest j c hget')]
                  exact hget',
                hrep⟩
            exact ⟨fuel + 1, res, by rw [solve2Loop, hexp]; exact hrun⟩

/-- Counterexample to C3: the claim fails at `k = 0` for both BFS
variants (an empty scramble leaves the start equal to the goal, yet
both searches return a 2-move path, since only children are checked
against the goal), and it fails for bidirectional BFS even at
`k = 4`: scrambling with the move word `[5, 1, 1, 5]` makes
`solve_2way` return a 6-move path, because the goal-side dict
overwrites shallow entries with deeper re-derivations of the same
facelet array. -/
theorem C3_counterexample :
    (replay solvedFaces ([] : List (Fin 6)) = solved.faces) ∧
    ((solve 3 solved solved).map (fun r => (movesOf r).length) = some 2) ∧
    ((solve_2way 2 solved solved).map (fun r => (movesOf r).length) = some 2) ∧
    ((replay solvedFaces [5, 1, 1, 5]).length = 24) ∧
    ((solve_2way 9 (.mk (replay solvedFaces [5, 1, 1, 5]) none none) solved).map
        (fun r => (movesOf r).length) = some 6) := by
  refine ⟨rfl, by decide, by decide, by decide, by decide⟩

/-- Amended C3: for every scramble word of length `k ≥ 1` applied to a
goal with a 24-entry facelet array, forward BFS returns (for
sufficient fuel) a solution whose ancestry path has length at most `k`
and replays from the start to the goal's facelet array; bidirectional
BFS also returns a solution whose path replays from the start to the
goal, but its path length may exceed `k`. -/
theorem C3_bfs_depth_bound :
    (∀ (ms : List (Fin 6)) (goal cube : Rubiks2x2),
        ms ≠ [] → goal.faces.length = 24 →
        cube.faces = replay goal.faces ms →
        ∃ fuel res, solve fuel cube goal = some res ∧
          (movesOf res).length ≤ ms.length ∧
          replay cube.faces (movesOf res) = goal.faces) ∧
    (∀ (ms : List (Fin 6)) (goal cube : Rubiks2x2),
        ms ≠ [] → goal.faces.length = 24 →
        cube.faces = replay goal.faces ms →
        ∃ fuel res, solve_2way fuel cube goal = some res ∧
          replay cube.faces (movesOf res) = goal.faces) := by
  constructor
  · intro ms goal cube hms h24 hcube
    obtain ⟨fuel, res, hrun, hbound, hfaces, hroot⟩ :=
      solveLoop_finds goal cube.faces ms.length (ms.reverse.map invMove)
        (by simp [hms]) 0 [.mk cube.faces none none]
        (by simp [DSorted]) (by intro a ha b hb; simp_all)
        (by intro c hc; rw [List.mem_singleton.mp hc]; exact Rooted.root none)
        ⟨.mk cube.faces none none, rfl, by
            show replay cube.faces (ms.reverse.map invMove) = goal.faces
            rw [hcube]
            exact replay_scramble_inverse ms goal.faces h24,
          by simp [movesOf]⟩
    refine ⟨fuel, res, hrun, by simpa using hbound, ?_⟩
    rw [hroot.replay_eq]
    exact hfaces
  · intro ms goal cube hms h24 hcube
    obtain ⟨fuel, res, hrun⟩ :=
      solve2Loop_finds goal (ms.reverse.map invMove) (by simp [hms]) 0
        [.mk cube.faces none none] [.mk goal.faces none none]
        [.mk goal.faces none none]
        (by simp) ⟨.mk goal.faces none none, by simp, rfl⟩
        ⟨.mk cube.faces none none, rfl, by
            show replay cube.faces (ms.reverse.map invMove) = goal.faces
            rw [hcube]
            exact replay_scramble_inverse ms goal.faces h24⟩
    refine ⟨fuel, res, hrun, ?_⟩
    exact solve2way_replay fuel cube goal res h24 hrun

/-- Witness for C3's amended statement on the one-move scramble
`[front]`. -/
theorem C3_bfs_depth_bound_witness :
    (∃ fuel res,
        solve fuel (.mk (replay solvedFaces [0]) none none) solved = some res ∧
        (movesOf res).length ≤ ([0] : List (Fin 6)).length ∧
        replay (Rubiks2x2.mk (replay solvedFaces [0]) none none).faces (movesOf res)
          = solved.faces) ∧
    (∃ fuel res,
        solve_2way fuel (.mk (replay solvedFaces [0]) none none) solved = some res ∧
        replay (Rubiks2x2.mk (replay solvedFaces [0]) none none).faces (movesOf res)
          = solved.faces) :=
  ⟨C3_bfs_depth_bound.1 [0] solved (.mk (replay solvedFaces [0]) none none)
      (by simp) (by decide) rfl,
   C3_bfs_depth_bound.2 [0] solved (.mk (replay solvedFaces [0]) none none)
      (by simp) (by decide) rfl⟩
